import Mathlib

set_option maxRecDepth 8000

/-!
Shallow embedding of the todo-cli storage engine (src/todo/models.py).

The Python module defines two enums (Priority, Status), a Todo dataclass and a
TodoStore owning a dict of id-string to Todo plus a min-heap of free integer
ids in [0, 99].  Every mutating operation persists the whole collection to one
JSON document.  Here:

* machine state is explicit: each store operation is a pure function from a
  TodoStore (and its arguments) to a result paired with the successor state;
* Python exceptions are an Except result; an operation that raises before
  mutating returns the unchanged store next to the error, mirroring the
  object's state after the exception propagates;
* the heapq min-heap is modelled as a sorted list: heappop is head extraction
  and heappush is ordered insertion, which has the same observable pop-min
  behaviour as the binary heap;
* the storage file is modelled abstractly by FileContent: missing, empty,
  malformed (json.load raises JSONDecodeError), or a parsed JSON object given
  as an association list from key strings to portable todo records;
* Python's str-enum JSON serialization writes the enum value ("high", "low",
  "pending", ...), modelled by Priority.str / Status.str;
* int(key) is modelled by parseKey, defined on non-empty all-digit strings,
  which agrees with Python on every key the store itself ever writes.
-/

inductive Priority where
  | high
  | medium
  | low
deriving DecidableEq

inductive Status where
  | pending
  | completed
deriving DecidableEq

/-- The Todo dataclass of models.py; timestamps are opaque ISO strings. -/
structure Todo where
  description : String
  priority : Priority
  file_path : Option String
  id : String
  status : Status
  created_at : String
  completed_at : Option String
deriving DecidableEq

/-- Portable (serialized) form of a Todo: the dict produced by Todo.to_dict
after JSON round-tripping, with enum fields rendered as raw strings. -/
structure TodoDict where
  description : String
  priority : String
  file_path : Option String
  id : String
  status : String
  created_at : String
  completed_at : Option String
deriving DecidableEq

/-- The distinct ValueError conditions raised by models.py: the capacity
message in add, the not-found message in update, and the ValueError raised by
Priority(...)/Status(...)/int(...) on unrecognized input. -/
inductive StoreErr where
  | capacity
  | notFound
  | valueError
deriving DecidableEq

deriving instance DecidableEq for Except

def Todo.mark_complete (t : Todo) (now : String) : Todo :=
  { t with status := Status.completed, completed_at := some now }

def Todo.mark_pending (t : Todo) : Todo :=
  { t with status := Status.pending, completed_at := none }

def Priority.str : Priority → String
  | .high => "high"
  | .medium => "medium"
  | .low => "low"

def Status.str : Status → String
  | .pending => "pending"
  | .completed => "completed"

/-- Priority("...") of the Python enum: value lookup, ValueError otherwise. -/
def Priority.ofStr : String → Except StoreErr Priority
  | "high" => .ok .high
  | "medium" => .ok .medium
  | "low" => .ok .low
  | _ => .error .valueError

/-- Status("...") of the Python enum: value lookup, ValueError otherwise. -/
def Status.ofStr : String → Except StoreErr Status
  | "pending" => .ok .pending
  | "completed" => .ok .completed
  | _ => .error .valueError

/-- Todo.to_dict (asdict + JSON encoding of the str-enums). -/
def Todo.to_dict (t : Todo) : TodoDict :=
  ⟨t.description, t.priority.str, t.file_path, t.id, t.status.str,
   t.created_at, t.completed_at⟩

/-- Todo.from_dict: converts the string enum fields, raising ValueError on
unrecognized values, then rebuilds the dataclass. -/
def Todo.from_dict (d : TodoDict) : Except StoreErr Todo :=
  match Priority.ofStr d.priority with
  | .error e => .error e
  | .ok p =>
      match Status.ofStr d.status with
      | .error e => .error e
      | .ok st =>
          .ok ⟨d.description, p, d.file_path, d.id, st, d.created_at, d.completed_at⟩

/-- A freshly constructed Todo (dataclass defaults): status PENDING,
completed_at None, placeholder id "0", created_at the current time. -/
def mkNewTodo (description : String) (priority : Priority)
    (file_path : Option String) (now : String) : Todo :=
  ⟨description, priority, file_path, "0", Status.pending, now, none⟩

/-- One entity-level status transition (Todo.mark_complete / Todo.mark_pending),
tagged with the timestamp the clock supplies. -/
inductive MarkOp where
  | complete (now : String)
  | pending
deriving DecidableEq

def applyMarks (ops : List MarkOp) (t : Todo) : Todo :=
  match ops with
  | [] => t
  | MarkOp.complete now :: rest => applyMarks rest (t.mark_complete now)
  | MarkOp.pending :: rest => applyMarks rest t.mark_pending

/-- The completed_at / status coupling asserted by the spec. -/
def completedIff (t : Todo) : Prop :=
  t.completed_at ≠ none ↔ t.status = Status.completed

/-- int(s) for the key strings: defined on non-empty digit strings. -/
def parseKey (s : String) : Option Nat :=
  let cs := s.toList
  if cs ≠ [] ∧ cs.all Char.isDigit then
    some (cs.foldl (fun a c => 10 * a + (c.toNat - 48)) 0)
  else none

/-- heapq.heappush on the sorted-list model of the min-heap. -/
def heappush (n : Nat) : List Nat → List Nat
  | [] => [n]
  | a :: t => if n ≤ a then n :: a :: t else a :: heappush n t

/-- dict.get on the association-list model of self.todos. -/
def dictGet (l : List (String × Todo)) (k : String) : Option Todo :=
  match l with
  | [] => none
  | p :: rest => if p.1 = k then some p.2 else dictGet rest k

def dictKeys (l : List (String × Todo)) : List String := l.map Prod.fst

/-- dict assignment self.todos[k] = v: replaces in place when the key exists,
appends (insertion order) otherwise. -/
def dictInsert (l : List (String × Todo)) (k : String) (v : Todo) :
    List (String × Todo) :=
  if k ∈ dictKeys l then
    l.map (fun p => if p.1 = k then (p.1, v) else p)
  else l ++ [(k, v)]

/-- The in-memory TodoStore state: self.todos and self.available_ids. -/
structure TodoStore where
  todos : List (String × Todo)
  available_ids : List Nat
deriving DecidableEq

/-- TodoStore.__init__ before any file is read (or with a missing file):
empty dict, heapified list(range(100)). -/
def initStore : TodoStore := ⟨[], List.range 100⟩

/-- TodoStore.add: raise on empty pool, else pop the smallest free id,
overwrite todo.id with its string form and insert. -/
def TodoStore.add (s : TodoStore) (t : Todo) : Except StoreErr Todo × TodoStore :=
  match s.available_ids with
  | [] => (.error .capacity, s)
  | m :: rest =>
      let t' := { t with id := toString m }
      (.ok t', ⟨dictInsert s.todos (toString m) t', rest⟩)

def TodoStore.get (s : TodoStore) (i : String) : Option Todo :=
  dictGet s.todos i

def TodoStore.get_all (s : TodoStore) : List Todo :=
  s.todos.map Prod.snd

/-- TodoStore.update: raise ValueError("... not found") on an unknown id,
else replace the stored entry wholesale. -/
def TodoStore.update (s : TodoStore) (t : Todo) : Except StoreErr Todo × TodoStore :=
  if t.id ∈ dictKeys s.todos then
    (.ok t, ⟨dictInsert s.todos t.id t, s.available_ids⟩)
  else (.error .notFound, s)

/-- TodoStore.remove: delete the entry if present and heappush int(id) back;
int() raising on a non-digit key happens after the del, as in the source. -/
def TodoStore.remove (s : TodoStore) (i : String) : Except StoreErr Bool × TodoStore :=
  if i ∈ dictKeys s.todos then
    let todos' := s.todos.filter (fun p => decide (p.1 ≠ i))
    match parseKey i with
    | some n => (.ok true, ⟨todos', heappush n s.available_ids⟩)
    | none => (.error .valueError, ⟨todos', s.available_ids⟩)
  else (.ok false, s)

/-- TodoStore.mark_complete: look up, mutate the entry in place, return it;
absence result None on an unknown id. -/
def TodoStore.mark_complete (s : TodoStore) (i now : String) :
    Option Todo × TodoStore :=
  match dictGet s.todos i with
  | some t =>
      let t' := t.mark_complete now
      (some t', ⟨s.todos.map (fun p => if p.1 = i then (p.1, t') else p),
                 s.available_ids⟩)
  | none => (none, s)

def TodoStore.mark_pending (s : TodoStore) (i : String) :
    Option Todo × TodoStore :=
  match dictGet s.todos i with
  | some t =>
      let t' := t.mark_pending
      (some t', ⟨s.todos.map (fun p => if p.1 = i then (p.1, t') else p),
                 s.available_ids⟩)
  | none => (none, s)

/-- Python's contiguous-substring test needle in hay. -/
def strContains (hay needle : String) : Bool :=
  let h := hay.toList
  let n := needle.toList
  (List.range (h.length + 1)).any (fun i => decide ((h.drop i).take n.length = n))

/-- The truthiness-guarded path criterion of TodoStore.filter:
todo.file_path and file_path in todo.file_path. -/
def pathTruthyMatch (fp : Option String) (q : String) : Bool :=
  match fp with
  | none => false
  | some s => if s = "" then false else strContains s q

/-- TodoStore.filter: status filter (exact), then file-path filter. -/
def TodoStore.filter (s : TodoStore) (status : Option Status)
    (file_path : Option String) : List Todo :=
  let l1 := s.get_all
  let l2 :=
    match status with
    | none => l1
    | some st => l1.filter (fun t => decide (t.status = st))
  match file_path with
  | none => l2
  | some q => l2.filter (fun t => pathTruthyMatch t.file_path q)

/-- The observable content of the storage file. -/
inductive FileContent where
  | missing
  | emptyFile
  | malformed
  | doc (entries : List (String × TodoDict))
deriving DecidableEq

/-- TodoStore._save: serialize every entry to its portable form. -/
def TodoStore.save (s : TodoStore) : FileContent :=
  .doc (s.todos.map (fun p => (p.1, p.2.to_dict)))

/-- The dict comprehension of _load: Todo.from_dict on every value, the first
ValueError escaping construction. -/
def loadEntries : List (String × TodoDict) → Except StoreErr (List (String × Todo))
  | [] => .ok []
  | (k, d) :: rest =>
      match Todo.from_dict d with
      | .error e => .error e
      | .ok t =>
          match loadEntries rest with
          | .error e => .error e
          | .ok ts => .ok ((k, t) :: ts)

/-- used_ids = set(int(todo_id) for todo_id in self.todos.keys()); int()
raising ValueError escapes construction. -/
def usedKeys : List (String × Todo) → Except StoreErr (List Nat)
  | [] => .ok []
  | p :: rest =>
      match parseKey p.1 with
      | some n =>
          match usedKeys rest with
          | .error e => .error e
          | .ok ns => .ok (n :: ns)
      | none => .error .valueError

/-- TodoStore._load as run by __init__: a missing or empty file and a
malformed document (JSONDecodeError, caught) give the empty store with the
full id pool; a parsed document is deserialized entry-wise and the free pool
is recomputed as the complement of the used ids within range(100). -/
def TodoStore.load (c : FileContent) : Except StoreErr TodoStore :=
  match c with
  | .missing => .ok ⟨[], List.range 100⟩
  | .emptyFile => .ok ⟨[], List.range 100⟩
  | .malformed => .ok ⟨[], List.range 100⟩
  | .doc l =>
      match loadEntries l with
      | .error e => .error e
      | .ok todos =>
          match usedKeys todos with
          | .error e => .error e
          | .ok used =>
              .ok ⟨todos, (List.range 100).filter (fun i => decide (i ∉ used))⟩

/-- A key the store itself can have written: the canonical decimal form of an
integer below 100. -/
def canonicalKeyB (k : String) : Bool :=
  match parseKey k with
  | some n => decide (n < 100) && decide (toString n = k)
  | none => false

/-- The free pool determined by a key set: the ascending complement of the
used ids within range(100). -/
def availSpec (ks : List String) : List Nat :=
  (List.range 100).filter (fun i => decide (toString i ∉ ks))

/-- The store's internal well-formedness: every key canonical, keys distinct,
and the heap holding exactly the sorted complement of the used ids. -/
def StoreInv (s : TodoStore) : Prop :=
  (∀ k ∈ dictKeys s.todos, canonicalKeyB k = true) ∧
  (dictKeys s.todos).Nodup ∧
  s.available_ids = availSpec (dictKeys s.todos)

/-- A storage file whose document (if any) has distinct canonical keys: the
shape _save itself always produces. -/
def WellFormedDoc : FileContent → Prop
  | .doc l => (∀ k ∈ l.map Prod.fst, canonicalKeyB k = true) ∧ (l.map Prod.fst).Nodup
  | _ => True

/-- Store states reachable through the public lifecycle: fresh construction,
construction over a well-formed file, and the five mutating operations. -/
inductive Reachable : TodoStore → Prop where
  | init : Reachable initStore
  | load (c : FileContent) (s : TodoStore) :
      WellFormedDoc c → TodoStore.load c = .ok s → Reachable s
  | add (s : TodoStore) (t : Todo) : Reachable s → Reachable (s.add t).2
  | update (s : TodoStore) (t : Todo) : Reachable s → Reachable (s.update t).2
  | remove (s : TodoStore) (i : String) : Reachable s → Reachable (s.remove i).2
  | mark_complete (s : TodoStore) (i now : String) :
      Reachable s → Reachable (s.mark_complete i now).2
  | mark_pending (s : TodoStore) (i : String) :
      Reachable s → Reachable (s.mark_pending i).2

/-- The integers obtained from the keys of entries (the claim's used set). -/
def UsedInts (s : TodoStore) : List Nat :=
  (dictKeys s.todos).filterMap parseKey

/-- The claim-level criterion of TodoStore.filter's path argument: file_path
is set and contains the query as a substring. -/
def pathMatches (t : Todo) (q : String) : Prop :=
  ∃ fp, t.file_path = some fp ∧ fp ≠ "" ∧ strContains fp q = true

/-! Concrete fixtures used by the scenario and witness statements. -/

def todoA : Todo := ⟨"A", Priority.medium, none, "0", Status.pending, "t", none⟩

def todoB : Todo := ⟨"B", Priority.medium, none, "0", Status.pending, "t", none⟩

def todoC : Todo := ⟨"C", Priority.medium, none, "0", Status.pending, "t", none⟩

def todoD : Todo := ⟨"D", Priority.medium, none, "0", Status.pending, "t", none⟩

def sc1 : TodoStore := (initStore.add todoA).2

def sc2 : TodoStore := (sc1.add todoB).2

def sc3 : TodoStore := (sc2.add todoC).2

def sc4 : TodoStore := (sc3.remove "1").2

def dict150 : TodoDict := ⟨"X", "high", none, "150", "pending", "t", none⟩

def todo150 : Todo := ⟨"X", Priority.high, none, "150", Status.pending, "t", none⟩

def store150 : TodoStore := ⟨[("150", todo150)], List.range 100⟩

def todoFull : Todo := ⟨"T", Priority.medium, none, "0", Status.pending, "t", none⟩

def doc100 : FileContent :=
  FileContent.doc ((List.range 100).map (fun n => (toString n, Todo.to_dict todoFull)))

def full100 : TodoStore := ⟨(List.range 100).map (fun n => (toString n, todoFull)), []⟩

def todoMilk : Todo := ⟨"Buy milk", Priority.low, none, "0", Status.pending, "t", none⟩

def storeMilk : TodoStore := (initStore.add todoMilk).2

def badPrioDict : TodoDict := ⟨"B", "urgent", none, "0", "pending", "t", none⟩

def badKeyDict : TodoDict := ⟨"B", "high", none, "abc", "pending", "t", none⟩

def todoEmptyPath : Todo := ⟨"E", Priority.medium, some "", "0", Status.pending, "t", none⟩

def storeEmptyPath : TodoStore := ⟨[("0", todoEmptyPath)], []⟩

def todoU : Todo := ⟨"U", Priority.high, none, "5", Status.pending, "t", none⟩

def todoX : Todo := ⟨"X", Priority.high, none, "0", Status.pending, "t", none⟩

def todoY : Todo := ⟨"Y", Priority.low, some "f", "1", Status.pending, "t", none⟩

def storeXY : TodoStore := ⟨[("0", todoX), ("1", todoY)], [2, 3]⟩

/-! Basic facts about keys and the id pool. -/

lemma parseKey_toString_mem : ∀ n ∈ List.range 100, parseKey (toString n) = some n := by
  decide

lemma parseKey_toString {n : Nat} (hn : n < 100) : parseKey (toString n) = some n :=
  parseKey_toString_mem n (List.mem_range.mpr hn)

lemma toString_injOn {n m : Nat} (hn : n < 100) (hm : m < 100)
    (h : toString n = toString m) : n = m := by
  have h1 := parseKey_toString hn
  rw [h, parseKey_toString hm] at h1
  exact (Option.some.inj h1).symm

lemma canonicalKeyB_toString {n : Nat} (hn : n < 100) :
    canonicalKeyB (toString n) = true := by
  unfold canonicalKeyB
  rw [parseKey_toString hn]
  simp [hn]

lemma canonicalKeyB_spec {k : String} (h : canonicalKeyB k = true) :
    ∃ n, n < 100 ∧ k = toString n ∧ parseKey k = some n := by
  unfold canonicalKeyB at h
  cases hp : parseKey k with
  | none => rw [hp] at h; cases h
  | some n =>
      rw [hp] at h
      simp only [Bool.and_eq_true, decide_eq_true_eq] at h
      exact ⟨n, h.1, h.2.symm, rfl⟩

lemma mem_availSpec {ks : List String} {n : Nat} :
    n ∈ availSpec ks ↔ n < 100 ∧ toString n ∉ ks := by
  unfold availSpec
  simp [List.mem_filter, List.mem_range]

/-! Association-list (dict) lemmas. -/

lemma dictKeys_cons (p : String × Todo) (l : List (String × Todo)) :
    dictKeys (p :: l) = p.1 :: dictKeys l := rfl

lemma dictGet_eq_none {l : List (String × Todo)} {k : String}
    (h : k ∉ dictKeys l) : dictGet l k = none := by
  induction l with
  | nil => rfl
  | cons p rest ih =>
      rw [dictKeys_cons] at h
      rw [dictGet, if_neg (fun he : p.1 = k => h (by rw [← he]; exact List.mem_cons_self _ _))]
      exact ih (fun hm => h (List.mem_cons_of_mem _ hm))

lemma dictInsert_absent {l : List (String × Todo)} {k : String} {v : Todo}
    (h : k ∉ dictKeys l) : dictInsert l k v = l ++ [(k, v)] := by
  unfold dictInsert
  rw [if_neg h]

lemma dictKeys_append (l₁ l₂ : List (String × Todo)) :
    dictKeys (l₁ ++ l₂) = dictKeys l₁ ++ dictKeys l₂ := by
  simp [dictKeys]

lemma dictKeys_map_fst_eq {l : List (String × Todo)}
    {g : String × Todo → String × Todo} (h : ∀ p, (g p).1 = p.1) :
    dictKeys (l.map g) = dictKeys l := by
  unfold dictKeys
  rw [List.map_map]
  exact List.map_congr_left (fun p _ => h p)

lemma dictKeys_dictInsert_present {l : List (String × Todo)} {k : String} {v : Todo}
    (h : k ∈ dictKeys l) : dictKeys (dictInsert l k v) = dictKeys l := by
  unfold dictInsert
  rw [if_pos h]
  exact dictKeys_map_fst_eq (fun p => by by_cases hp : p.1 = k <;> simp [hp])

lemma dictGet_append_fresh {l : List (String × Todo)} {k : String} {v : Todo}
    (h : k ∉ dictKeys l) : dictGet (l ++ [(k, v)]) k = some v := by
  induction l with
  | nil => simp [dictGet]
  | cons p rest ih =>
      rw [dictKeys_cons] at h
      rw [List.cons_append, dictGet,
        if_neg (fun he : p.1 = k => h (by rw [← he]; exact List.mem_cons_self _ _))]
      exact ih (fun hm => h (List.mem_cons_of_mem _ hm))

lemma dictGet_append_frame {l : List (String × Todo)} {k : String} {v : Todo}
    {j : String} (h : j ≠ k) : dictGet (l ++ [(k, v)]) j = dictGet l j := by
  induction l with
  | nil =>
      show (if k = j then some v else none) = none
      rw [if_neg (fun he : k = j => h he.symm)]
  | cons p rest ih =>
      rw [List.cons_append, dictGet, dictGet]
      by_cases hj : p.1 = j
      · rw [if_pos hj, if_pos hj]
      · rw [if_neg hj, if_neg hj]
        exact ih

lemma dictGet_map_frame {l : List (String × Todo)} {i j : String} {t' : Todo}
    (h : j ≠ i) :
    dictGet (l.map (fun p => if p.1 = i then (p.1, t') else p)) j = dictGet l j := by
  induction l with
  | nil => rfl
  | cons p rest ih =>
      by_cases hp : p.1 = i
      · simp only [List.map_cons, if_pos hp, dictGet]
        by_cases hj : p.1 = j
        · exact absurd (hj.symm.trans hp) h
        · rw [if_neg hj, if_neg hj]
          exact ih
      · simp only [List.map_cons, if_neg hp, dictGet]
        by_cases hj : p.1 = j
        · rw [if_pos hj, if_pos hj]
        · rw [if_neg hj, if_neg hj]
          exact ih

lemma dictGet_filter_frame {l : List (String × Todo)} {i j : String} (h : j ≠ i) :
    dictGet (l.filter (fun p => decide (p.1 ≠ i))) j = dictGet l j := by
  induction l with
  | nil => rfl
  | cons p rest ih =>
      by_cases hp : p.1 = i
      · rw [List.filter_cons_of_neg (by simp [hp])]
        rw [dictGet, if_neg (fun he : p.1 = j => h (he.symm.trans hp))]
        exact ih
      · rw [List.filter_cons_of_pos (by simp [hp])]
        rw [dictGet, dictGet]
        by_cases hj : p.1 = j
        · rw [if_pos hj, if_pos hj]
        · rw [if_neg hj, if_neg hj]
          exact ih

lemma dictGet_dictInsert_frame {l : List (String × Todo)} {k : String} {v : Todo}
    {j : String} (h : j ≠ k) : dictGet (dictInsert l k v) j = dictGet l j := by
  unfold dictInsert
  by_cases hm : k ∈ dictKeys l
  · rw [if_pos hm]
    exact dictGet_map_frame h
  · rw [if_neg hm]
    exact dictGet_append_frame h

lemma dictKeys_filter (l : List (String × Todo)) (i : String) :
    dictKeys (l.filter (fun p => decide (p.1 ≠ i))) =
      (dictKeys l).filter (fun k => decide (k ≠ i)) := by
  induction l with
  | nil => rfl
  | cons p rest ih =>
      by_cases hp : p.1 = i
      · rw [List.filter_cons_of_neg (by simp [hp]), dictKeys_cons,
          List.filter_cons_of_neg (by simp [hp])]
        exact ih
      · rw [List.filter_cons_of_pos (by simp [hp]), dictKeys_cons, dictKeys_cons,
          List.filter_cons_of_pos (by simp [hp]), ih]

/-! Min-heap (sorted-list) lemmas. -/

lemma heappush_cons_of_le {l : List Nat} {n : Nat} (h : ∀ b ∈ l, n ≤ b) :
    heappush n l = n :: l := by
  cases l with
  | nil => rfl
  | cons a t =>
      rw [heappush, if_pos (h a (List.mem_cons_self _ _))]

lemma filter_tail_eq {l : List Nat} {p : Nat → Bool} {m : Nat} {r : List Nat}
    (hnd : l.Nodup) (h : l.filter p = m :: r) :
    r = l.filter (fun i => p i && decide (i ≠ m)) := by
  induction l with
  | nil => simp at h
  | cons a t ih =>
      rw [List.nodup_cons] at hnd
      by_cases pa : p a = true
      · rw [List.filter_cons_of_pos pa] at h
        injection h with h1 h2
        subst h1
        rw [List.filter_cons_of_neg (by simp [pa])]
        rw [← h2]
        exact List.filter_congr (fun x hx => by
          have hxa : x ≠ a := fun he => hnd.1 (he ▸ hx)
          simp [pa, hxa])
      · have pa' : p a = false := by simpa using pa
        rw [List.filter_cons_of_neg (by simp [pa'])] at h
        rw [List.filter_cons_of_neg (by simp [pa'])]
        exact ih hnd.2 h

lemma heappush_filter {l : List Nat} {p : Nat → Bool} {n : Nat}
    (hs : l.Pairwise (· < ·)) (hn : n ∈ l) (hpn : p n = false) :
    heappush n (l.filter p) = l.filter (fun i => p i || decide (i = n)) := by
  induction l with
  | nil => cases hn
  | cons a t ih =>
      rw [List.pairwise_cons] at hs
      rcases List.mem_cons.mp hn with rfl | hnt
      · rw [List.filter_cons_of_neg (by simp [hpn]),
          List.filter_cons_of_pos (by simp)]
        have hq : t.filter (fun i => p i || decide (i = n)) = t.filter p :=
          List.filter_congr (fun x hx => by
            have hxa : x ≠ n := fun he => absurd (he ▸ hs.1 x hx) (lt_irrefl n)
            simp [hxa])
        rw [hq]
        exact heappush_cons_of_le
          (fun b hb => le_of_lt (hs.1 b (List.mem_of_mem_filter hb)))
      · have hna : a ≠ n := fun he => absurd (he ▸ hs.1 n hnt) (lt_irrefl n)
        by_cases pa : p a = true
        · rw [List.filter_cons_of_pos pa, List.filter_cons_of_pos (by simp [pa])]
          have han : ¬ n ≤ a := not_le.mpr (hs.1 n hnt)
          rw [heappush, if_neg han, ih hs.2 hnt]
        · have pa' : p a = false := by simpa using pa
          rw [List.filter_cons_of_neg (by simp [pa']),
            List.filter_cons_of_neg (by simp [pa', hna])]
          exact ih hs.2 hnt

lemma filter_head_min {l : List Nat} {p : Nat → Bool} {m : Nat} {r : List Nat}
    (hs : l.Pairwise (· < ·)) (h : l.filter p = m :: r) :
    ∀ k ∈ l, k < m → p k = false := by
  induction l with
  | nil => intro k hk; cases hk
  | cons a t ih =>
      rw [List.pairwise_cons] at hs
      intro k hk hkm
      by_cases pa : p a = true
      · rw [List.filter_cons_of_pos pa] at h
        injection h with h1 h2
        subst h1
        rcases List.mem_cons.mp hk with rfl | hkt
        · exact absurd hkm (lt_irrefl k)
        · exact (lt_asymm (hs.1 k hkt) hkm).elim
      · have pa' : p a = false := by simpa using pa
        rw [List.filter_cons_of_neg (by simp [pa'])] at h
        rcases List.mem_cons.mp hk with rfl | hkt
        · exact pa'
        · exact ih hs.2 h k hkt hkm

/-! Counting lemmas for the 100-id ceiling. -/

lemma allKeys_nodup : ((List.range 100).map (fun n => toString n)).Nodup :=
  (List.nodup_range 100).map_on (fun _ hx _ hy h =>
    toString_injOn (List.mem_range.mp hx) (List.mem_range.mp hy) h)

lemma keys_length_le {s : TodoStore} (hs : StoreInv s) : s.todos.length ≤ 100 := by
  have hsub : dictKeys s.todos ⊆ (List.range 100).map (fun n => toString n) := by
    intro k hk
    obtain ⟨n, hn, hkeq, -⟩ := canonicalKeyB_spec (hs.1 k hk)
    exact hkeq ▸ List.mem_map.mpr ⟨n, List.mem_range.mpr hn, rfl⟩
  have h1 := (hs.2.1.subperm hsub).length_le
  simpa [dictKeys] using h1

lemma avail_nil_iff {s : TodoStore} (hs : StoreInv s) :
    s.available_ids = [] ↔ s.todos.length = 100 := by
  constructor
  · intro h
    rw [hs.2.2] at h
    have hall : ∀ i ∈ List.range 100, toString i ∈ dictKeys s.todos := by
      intro i hi
      by_contra hni
      have hmem : (i : Nat) ∈ availSpec (dictKeys s.todos) :=
        mem_availSpec.mpr ⟨List.mem_range.mp hi, hni⟩
      rw [h] at hmem
      cases hmem
    have hsub : ((List.range 100).map (fun n => toString n)) ⊆ dictKeys s.todos := by
      intro k hk
      obtain ⟨n, hn, rfl⟩ := List.mem_map.mp hk
      exact hall n hn
    have h1 := (allKeys_nodup.subperm hsub).length_le
    have h2 := keys_length_le hs
    have h3 : (dictKeys s.todos).length = s.todos.length := by simp [dictKeys]
    simp only [List.length_map, List.length_range] at h1
    omega
  · intro h
    rw [hs.2.2]
    unfold availSpec
    rw [List.filter_eq_nil_iff]
    intro a ha
    simp only [decide_eq_true_eq, not_not]
    by_contra hna
    have hsub : dictKeys s.todos ⊆
        ((List.range 100).map (fun n => toString n)).erase (toString a) := by
      intro k hk
      obtain ⟨n, hn, hkeq, -⟩ := canonicalKeyB_spec (hs.1 k hk)
      have hkm : k ∈ (List.range 100).map (fun n => toString n) :=
        hkeq ▸ List.mem_map.mpr ⟨n, List.mem_range.mpr hn, rfl⟩
      have hkne : k ≠ toString a := fun he => hna (he ▸ hk)
      exact (List.mem_erase_of_ne hkne).mpr hkm
    have h1 := (hs.2.1.subperm hsub).length_le
    have hmem : toString a ∈ (List.range 100).map (fun n => toString n) :=
      List.mem_map.mpr ⟨a, ha, rfl⟩
    rw [List.length_erase_of_mem hmem] at h1
    have h3 : (dictKeys s.todos).length = s.todos.length := by simp [dictKeys]
    simp only [List.length_map, List.length_range] at h1
    omega

/-! Establishment and preservation of the store invariant. -/

lemma storeInv_init : StoreInv initStore := by
  refine ⟨?_, ?_, ?_⟩
  · intro k hk
    simp [initStore, dictKeys] at hk
  · exact List.nodup_nil
  · rfl

lemma loadEntries_keys {l : List (String × TodoDict)} {ts : List (String × Todo)}
    (h : loadEntries l = .ok ts) : dictKeys ts = l.map Prod.fst := by
  induction l generalizing ts with
  | nil => cases h; rfl
  | cons p rest ih =>
      obtain ⟨k, d⟩ := p
      rw [loadEntries] at h
      cases hfd : Todo.from_dict d with
      | error e => rw [hfd] at h; cases h
      | ok t =>
          rw [hfd] at h
          cases hle : loadEntries rest with
          | error e => rw [hle] at h; cases h
          | ok ts' =>
              rw [hle] at h
              cases h
              rw [dictKeys_cons, List.map_cons, ih hle]

lemma usedKeys_canonical {ts : List (String × Todo)}
    (h : ∀ k ∈ dictKeys ts, canonicalKeyB k = true) :
    ∃ us, usedKeys ts = .ok us ∧
      ∀ i : Nat, i < 100 → ((i ∈ us) ↔ toString i ∈ dictKeys ts) := by
  induction ts with
  | nil =>
      refine ⟨[], rfl, ?_⟩
      intro i _
      simp [dictKeys]
  | cons p rest ih =>
      have hp := h p.1 (by rw [dictKeys_cons]; exact List.mem_cons_self _ _)
      obtain ⟨n, hn, hpk, hparse⟩ := canonicalKeyB_spec hp
      obtain ⟨us, hus, hmem⟩ :=
        ih (fun k hk => h k (by rw [dictKeys_cons]; exact List.mem_cons_of_mem _ hk))
      refine ⟨n :: us, ?_, ?_⟩
      · simp only [usedKeys, hparse, hus]
      · intro i hi
        rw [dictKeys_cons]
        constructor
        · intro hui
          rcases List.mem_cons.mp hui with rfl | hiu
          · rw [hpk]
            exact List.mem_cons_self _ _
          · exact List.mem_cons_of_mem _ ((hmem i hi).mp hiu)
        · intro hki
          rcases List.mem_cons.mp hki with he | hk2
          · have hin : i = n := toString_injOn hi hn (he.trans hpk)
            rw [hin]
            exact List.mem_cons_self _ _
          · exact List.mem_cons_of_mem _ ((hmem i hi).mpr hk2)

lemma availSpec_of_used {ts : List (String × Todo)} {us : List Nat}
    (hmem : ∀ i : Nat, i < 100 → ((i ∈ us) ↔ toString i ∈ dictKeys ts)) :
    (List.range 100).filter (fun i => decide (i ∉ us)) = availSpec (dictKeys ts) := by
  unfold availSpec
  exact List.filter_congr (fun i hi =>
    decide_eq_decide.mpr (not_congr (hmem i (List.mem_range.mp hi))))

lemma storeInv_load {c : FileContent} {s : TodoStore}
    (hwf : WellFormedDoc c) (h : TodoStore.load c = .ok s) : StoreInv s := by
  cases c with
  | missing => cases h; exact storeInv_init
  | emptyFile => cases h; exact storeInv_init
  | malformed => cases h; exact storeInv_init
  | doc l =>
      obtain ⟨hkeys, hnd⟩ := hwf
      cases hle : loadEntries l with
      | error e =>
          simp only [TodoStore.load, hle] at h
          cases h
      | ok todos =>
          have hkeq := loadEntries_keys hle
          have hcan : ∀ k ∈ dictKeys todos, canonicalKeyB k = true := by
            rw [hkeq]; exact hkeys
          obtain ⟨us, hus, hmem⟩ := usedKeys_canonical hcan
          simp only [TodoStore.load, hle, hus] at h
          cases h
          refine ⟨hcan, ?_, ?_⟩
          · rw [hkeq]; exact hnd
          · exact availSpec_of_used hmem

lemma storeInv_insert_fresh {s : TodoStore} (hs : StoreInv s) {m : Nat}
    {rest : List Nat} (hA : s.available_ids = m :: rest) (v : Todo) :
    StoreInv ⟨s.todos ++ [(toString m, v)], rest⟩ := by
  have hav : availSpec (dictKeys s.todos) = m :: rest := hs.2.2.symm.trans hA
  have hm : m ∈ availSpec (dictKeys s.todos) := by
    rw [hav]; exact List.mem_cons_self _ _
  obtain ⟨hm100, hmk⟩ := mem_availSpec.mp hm
  unfold availSpec at hav
  have hrest := filter_tail_eq (List.nodup_range 100) hav
  refine ⟨?_, ?_, ?_⟩
  · intro k hk
    rw [dictKeys_append] at hk
    rcases List.mem_append.mp hk with hk1 | hk2
    · exact hs.1 k hk1
    · have hke : k = toString m := by simpa [dictKeys] using hk2
      rw [hke]
      exact canonicalKeyB_toString hm100
  · rw [dictKeys_append, List.nodup_append]
    refine ⟨hs.2.1, by simp [dictKeys], ?_⟩
    intro a ha hb
    have hae : a = toString m := by simpa [dictKeys] using hb
    exact hmk (hae ▸ ha)
  · show rest = availSpec (dictKeys (s.todos ++ [(toString m, v)]))
    rw [dictKeys_append, hrest]
    unfold availSpec
    refine List.filter_congr ?_
    intro i hi
    have hi' := List.mem_range.mp hi
    have hiff : (toString i ∉ dictKeys s.todos ++ dictKeys [(toString m, v)]) ↔
        (toString i ∉ dictKeys s.todos ∧ i ≠ m) := by
      rw [List.mem_append]
      constructor
      · intro hni
        refine ⟨fun hmem2 => hni (Or.inl hmem2), fun he => hni (Or.inr ?_)⟩
        rw [he]
        simp [dictKeys]
      · rintro ⟨h1, h2⟩ (hc | hc)
        · exact h1 hc
        · have hts : toString i = toString m := by simpa [dictKeys] using hc
          exact h2 (toString_injOn hi' hm100 hts)
    rw [decide_eq_decide.mpr hiff]
    exact (Bool.decide_and _ _).symm

lemma storeInv_add {s : TodoStore} (hs : StoreInv s) (t : Todo) :
    StoreInv (s.add t).2 := by
  cases hA : s.available_ids with
  | nil =>
      have h2 : (s.add t).2 = s := by simp [TodoStore.add, hA]
      rw [h2]
      exact hs
  | cons m rest =>
      have h2 : (s.add t).2 =
          ⟨dictInsert s.todos (toString m) { t with id := toString m }, rest⟩ := by
        simp [TodoStore.add, hA]
      have hav : availSpec (dictKeys s.todos) = m :: rest := hs.2.2.symm.trans hA
      have hm : m ∈ availSpec (dictKeys s.todos) := by
        rw [hav]; exact List.mem_cons_self _ _
      obtain ⟨-, hmk⟩ := mem_availSpec.mp hm
      rw [h2, dictInsert_absent hmk]
      exact storeInv_insert_fresh hs hA _

lemma storeInv_update {s : TodoStore} (hs : StoreInv s) (t : Todo) :
    StoreInv (s.update t).2 := by
  by_cases hmem : t.id ∈ dictKeys s.todos
  · have h2 : (s.update t).2 = ⟨dictInsert s.todos t.id t, s.available_ids⟩ := by
      simp [TodoStore.update, hmem]
    rw [h2]
    have hkeq : dictKeys (dictInsert s.todos t.id t) = dictKeys s.todos :=
      dictKeys_dictInsert_present hmem
    exact ⟨fun k hk => hs.1 k (hkeq ▸ hk),
      by rw [show dictKeys (dictInsert s.todos t.id t) = dictKeys s.todos from hkeq]; exact hs.2.1,
      by rw [show dictKeys (dictInsert s.todos t.id t) = dictKeys s.todos from hkeq]; exact hs.2.2⟩
  · have h2 : (s.update t).2 = s := by simp [TodoStore.update, hmem]
    rw [h2]
    exact hs

lemma storeInv_remove {s : TodoStore} (hs : StoreInv s) (i : String) :
    StoreInv (s.remove i).2 := by
  by_cases hmem : i ∈ dictKeys s.todos
  · obtain ⟨n, hn, hieq, hparse⟩ := canonicalKeyB_spec (hs.1 i hmem)
    have h2 : (s.remove i).2 =
        ⟨s.todos.filter (fun p => decide (p.1 ≠ i)), heappush n s.available_ids⟩ := by
      simp [TodoStore.remove, hmem, hparse]
    rw [h2]
    have hkeq : dictKeys (s.todos.filter (fun p => decide (p.1 ≠ i))) =
        (dictKeys s.todos).filter (fun k => decide (k ≠ i)) := dictKeys_filter _ _
    refine ⟨?_, ?_, ?_⟩
    · intro k hk
      rw [hkeq] at hk
      exact hs.1 k (List.mem_of_mem_filter hk)
    · rw [show dictKeys (s.todos.filter (fun p => decide (p.1 ≠ i))) =
          (dictKeys s.todos).filter (fun k => decide (k ≠ i)) from hkeq]
      exact hs.2.1.filter _
    · rw [show dictKeys (s.todos.filter (fun p => decide (p.1 ≠ i))) =
          (dictKeys s.todos).filter (fun k => decide (k ≠ i)) from hkeq]
      rw [hs.2.2]
      unfold availSpec
      have hpn : (fun j => decide (toString j ∉ dictKeys s.todos)) n = false := by
        simp only [decide_eq_false_iff_not, not_not]
        rw [← hieq]
        exact hmem
      rw [heappush_filter (List.pairwise_lt_range 100) (List.mem_range.mpr hn) hpn]
      refine List.filter_congr ?_
      intro j hj
      have hj' := List.mem_range.mp hj
      have hjmem : toString j ∈ (dictKeys s.todos).filter (fun k => decide (k ≠ i)) ↔
          (toString j ∈ dictKeys s.todos ∧ toString j ≠ i) := by
        rw [List.mem_filter]
        simp
      have hts : (toString j ≠ i) ↔ (j ≠ n) := by
        rw [hieq]
        constructor
        · intro hne he
          exact hne (by rw [he])
        · intro hne he
          exact hne (toString_injOn hj' hn he)
      have hiff : (toString j ∉ (dictKeys s.todos).filter (fun k => decide (k ≠ i))) ↔
          (toString j ∉ dictKeys s.todos ∨ j = n) := by
        constructor
        · intro hnf
          by_cases hjn : j = n
          · exact Or.inr hjn
          · exact Or.inl (fun hjk => hnf (hjmem.mpr ⟨hjk, hts.mpr hjn⟩))
        · rintro (hc | hc) hmem2
          · exact hc (hjmem.mp hmem2).1
          · exact (hts.mp (hjmem.mp hmem2).2) hc
      rw [decide_eq_decide.mpr hiff]
      exact (Bool.decide_or _ _).symm
  · have h2 : (s.remove i).2 = s := by simp [TodoStore.remove, hmem]
    rw [h2]
    exact hs

lemma storeInv_mark_complete {s : TodoStore} (hs : StoreInv s) (i now : String) :
    StoreInv (s.mark_complete i now).2 := by
  cases hg : dictGet s.todos i with
  | none =>
      have h2 : (s.mark_complete i now).2 = s := by simp [TodoStore.mark_complete, hg]
      rw [h2]
      exact hs
  | some t =>
      have h2 : (s.mark_complete i now).2 =
          ⟨s.todos.map (fun p => if p.1 = i then (p.1, t.mark_complete now) else p),
           s.available_ids⟩ := by
        simp [TodoStore.mark_complete, hg]
      rw [h2]
      have hkeq : dictKeys
          (s.todos.map (fun p => if p.1 = i then (p.1, t.mark_complete now) else p)) =
          dictKeys s.todos :=
        dictKeys_map_fst_eq (fun p => by by_cases hp : p.1 = i <;> simp [hp])
      exact ⟨fun k hk => hs.1 k (hkeq ▸ hk),
        by rw [show dictKeys (s.todos.map
            (fun p => if p.1 = i then (p.1, t.mark_complete now) else p)) =
            dictKeys s.todos from hkeq]; exact hs.2.1,
        by rw [show dictKeys (s.todos.map
            (fun p => if p.1 = i then (p.1, t.mark_complete now) else p)) =
            dictKeys s.todos from hkeq]; exact hs.2.2⟩

lemma storeInv_mark_pending {s : TodoStore} (hs : StoreInv s) (i : String) :
    StoreInv (s.mark_pending i).2 := by
  cases hg : dictGet s.todos i with
  | none =>
      have h2 : (s.mark_pending i).2 = s := by simp [TodoStore.mark_pending, hg]
      rw [h2]
      exact hs
  | some t =>
      have h2 : (s.mark_pending i).2 =
          ⟨s.todos.map (fun p => if p.1 = i then (p.1, t.mark_pending) else p),
           s.available_ids⟩ := by
        simp [TodoStore.mark_pending, hg]
      rw [h2]
      have hkeq : dictKeys
          (s.todos.map (fun p => if p.1 = i then (p.1, t.mark_pending) else p)) =
          dictKeys s.todos :=
        dictKeys_map_fst_eq (fun p => by by_cases hp : p.1 = i <;> simp [hp])
      exact ⟨fun k hk => hs.1 k (hkeq ▸ hk),
        by rw [show dictKeys (s.todos.map
            (fun p => if p.1 = i then (p.1, t.mark_pending) else p)) =
            dictKeys s.todos from hkeq]; exact hs.2.1,
        by rw [show dictKeys (s.todos.map
            (fun p => if p.1 = i then (p.1, t.mark_pending) else p)) =
            dictKeys s.todos from hkeq]; exact hs.2.2⟩

lemma reachable_storeInv {s : TodoStore} (h : Reachable s) : StoreInv s := by
  induction h with
  | init => exact storeInv_init
  | load c s hwf hok => exact storeInv_load hwf hok
  | add s t _ ih => exact storeInv_add ih t
  | update s t _ ih => exact storeInv_update ih t
  | remove s i _ ih => exact storeInv_remove ih i
  | mark_complete s i now _ ih => exact storeInv_mark_complete ih i now
  | mark_pending s i _ ih => exact storeInv_mark_pending ih i

/-! Serialization round-trip helpers. -/

lemma from_dict_to_dict (t : Todo) : Todo.from_dict t.to_dict = Except.ok t := by
  obtain ⟨d, p, f, i, st, c, comp⟩ := t
  cases p <;> cases st <;> rfl

lemma loadEntries_save (l : List (String × Todo)) :
    loadEntries (l.map (fun p => (p.1, p.2.to_dict))) = .ok l := by
  induction l with
  | nil => rfl
  | cons p rest ih =>
      obtain ⟨k, v⟩ := p
      simp only [List.map_cons, loadEntries, from_dict_to_dict, ih]

lemma load_save {s : TodoStore} (hs : StoreInv s) :
    TodoStore.load s.save = .ok s := by
  obtain ⟨us, hus, hmem⟩ := usedKeys_canonical hs.1
  simp only [TodoStore.save, TodoStore.load, loadEntries_save, hus]
  rw [availSpec_of_used hmem, ← hs.2.2]

lemma pathTruthyMatch_iff_matches {t : Todo} {q : String} :
    pathTruthyMatch t.file_path q = true ↔ pathMatches t q := by
  unfold pathMatches
  cases hf : t.file_path with
  | none => simp [pathTruthyMatch]
  | some s0 =>
      by_cases hs0 : s0 = ""
      · subst hs0
        simp [pathTruthyMatch]
      · simp [pathTruthyMatch, hs0]

/-- Claim C1: in every reachable store with a non-empty free pool, add assigns
the string form of the numerically smallest integer in [0, 99] not used by any
stored todo, an id absent from the current keys; in particular after adding
three todos (ids "0", "1", "2") and removing id "1", the next add gets "1". -/
theorem add_assigns_smallest_free_id :
    (∀ (s : TodoStore) (t : Todo), Reachable s → s.available_ids ≠ [] →
      ∃ m rest, s.available_ids = m :: rest ∧
        s.add t = (Except.ok { t with id := toString m },
          ⟨s.todos ++ [(toString m, { t with id := toString m })], rest⟩) ∧
        m < 100 ∧ toString m ∉ dictKeys s.todos ∧
        (∀ k, k < m → toString k ∈ dictKeys s.todos)) ∧
    ((initStore.add todoA).1 = Except.ok { todoA with id := "0" } ∧
     (sc1.add todoB).1 = Except.ok { todoB with id := "1" } ∧
     (sc2.add todoC).1 = Except.ok { todoC with id := "2" } ∧
     (sc3.remove "1").1 = Except.ok true ∧
     (sc4.add todoD).1 = Except.ok { todoD with id := "1" }) := by
  constructor
  · intro s t hre hne
    have hs := reachable_storeInv hre
    cases hA : s.available_ids with
    | nil => exact absurd hA hne
    | cons m rest =>
        have hav : availSpec (dictKeys s.todos) = m :: rest := hs.2.2.symm.trans hA
        have hm : m ∈ availSpec (dictKeys s.todos) := by
          rw [hav]; exact List.mem_cons_self _ _
        obtain ⟨hm100, hmk⟩ := mem_availSpec.mp hm
        refine ⟨m, rest, rfl, ?_, hm100, hmk, ?_⟩
        · simp [TodoStore.add, hA, dictInsert_absent hmk]
        · intro k hkm
          unfold availSpec at hav
          have hf := filter_head_min (List.pairwise_lt_range 100) hav k
            (List.mem_range.mpr (lt_trans hkm hm100)) hkm
          simpa using hf
  · exact ⟨by decide, by decide, by decide, by decide, by decide⟩

theorem add_assigns_smallest_free_id_witness :
    ∃ m rest, initStore.available_ids = m :: rest ∧
      initStore.add todoA = (Except.ok { todoA with id := toString m },
        ⟨initStore.todos ++ [(toString m, { todoA with id := toString m })], rest⟩) ∧
      m < 100 ∧ toString m ∉ dictKeys initStore.todos ∧
      (∀ k, k < m → toString k ∈ dictKeys initStore.todos) :=
  add_assigns_smallest_free_id.1 initStore todoA Reachable.init (by decide)

/-- Claim C2 (amended): in every state reachable through construction, loading
a well-formed file, and the five mutating operations, the free pool and the
integers from the entry keys are disjoint, their union is exactly
{0, ..., 99}, and at most 100 todos are live. -/
theorem pool_partition_of_reachable :
    ∀ s : TodoStore, Reachable s →
      (∀ n ∈ s.available_ids, n < 100) ∧
      (∀ n ∈ UsedInts s, n < 100) ∧
      (∀ n, n < 100 → (n ∈ s.available_ids ↔ n ∉ UsedInts s)) ∧
      s.todos.length ≤ 100 := by
  intro s hre
  have hs := reachable_storeInv hre
  have hused : ∀ n : Nat, n ∈ UsedInts s ↔ (n < 100 ∧ toString n ∈ dictKeys s.todos) := by
    intro n
    unfold UsedInts
    rw [List.mem_filterMap]
    constructor
    · rintro ⟨k, hk, hpk⟩
      obtain ⟨n', hn', hkeq, hparse⟩ := canonicalKeyB_spec (hs.1 k hk)
      rw [hparse] at hpk
      injection hpk with hnn
      subst hnn
      exact ⟨hn', hkeq ▸ hk⟩
    · rintro ⟨hn, hk⟩
      exact ⟨toString n, hk, parseKey_toString hn⟩
  refine ⟨?_, ?_, ?_, keys_length_le hs⟩
  · intro n hn
    rw [hs.2.2] at hn
    exact (mem_availSpec.mp hn).1
  · intro n hn
    exact ((hused n).mp hn).1
  · intro n hn
    rw [hs.2.2, mem_availSpec, hused n]
    constructor
    · rintro ⟨-, hnk⟩ ⟨-, hk⟩
      exact hnk hk
    · intro hni
      exact ⟨hn, fun hk => hni ⟨hn, hk⟩⟩

theorem pool_partition_of_reachable_witness :
    (∀ n ∈ initStore.available_ids, n < 100) ∧
    (∀ n ∈ UsedInts initStore, n < 100) ∧
    (∀ n, n < 100 → (n ∈ initStore.available_ids ↔ n ∉ UsedInts initStore)) ∧
    initStore.todos.length ≤ 100 :=
  pool_partition_of_reachable initStore Reachable.init

/-- Claim C2 counterexample: loading the valid JSON document with the single
key "150" succeeds, yet the used-id set of the resulting store contains 150
while the free pool is all of {0, ..., 99}: the union is not {0, ..., 99}. -/
theorem pool_partition_counterexample :
    TodoStore.load (FileContent.doc [("150", dict150)]) = Except.ok store150 ∧
    150 ∈ UsedInts store150 ∧
    ¬ (∀ n ∈ UsedInts store150, n < 100) ∧
    store150.available_ids = List.range 100 := by
  refine ⟨by decide, by decide, ?_, by decide⟩
  intro hall
  have h150 := hall 150 (by decide)
  omega

/-- Claim C3: add on a reachable store holding exactly 100 live todos fails
with the capacity error and returns the store state unchanged. -/
theorem add_full_store_capacity_error :
    ∀ (s : TodoStore) (t : Todo), Reachable s → s.todos.length = 100 →
      s.add t = (Except.error StoreErr.capacity, s) := by
  intro s t hre hlen
  have hs := reachable_storeInv hre
  have hnil : s.available_ids = [] := (avail_nil_iff hs).mpr hlen
  simp [TodoStore.add, hnil]

theorem add_full_store_capacity_error_witness :
    full100.add todoFull = (Except.error StoreErr.capacity, full100) :=
  add_full_store_capacity_error full100 todoFull
    (Reachable.load doc100 full100 ⟨by decide, by decide⟩ (by decide))
    (by decide)

/-- Claim C4: after a successful add on a reachable store, loading the file
just saved reproduces the post-add store exactly, and the stored todo keeps
the added todo's description and priority under its assigned id. -/
theorem persistence_roundtrip :
    ∀ (s : TodoStore) (t t' : Todo) (s' : TodoStore), Reachable s →
      s.add t = (Except.ok t', s') →
      TodoStore.load s'.save = Except.ok s' ∧
      dictGet s'.todos t'.id = some t' ∧
      t'.description = t.description ∧ t'.priority = t.priority := by
  intro s t t' s' hre hadd
  have hs := reachable_storeInv hre
  cases hA : s.available_ids with
  | nil => simp [TodoStore.add, hA] at hadd
  | cons m rest =>
      simp only [TodoStore.add, hA, Prod.mk.injEq] at hadd
      obtain ⟨ht', hs'⟩ := hadd
      injection ht' with ht2
      subst ht2
      subst hs'
      have hav : availSpec (dictKeys s.todos) = m :: rest := hs.2.2.symm.trans hA
      have hm : m ∈ availSpec (dictKeys s.todos) := by
        rw [hav]; exact List.mem_cons_self _ _
      obtain ⟨-, hmk⟩ := mem_availSpec.mp hm
      have hsi : StoreInv
          (⟨dictInsert s.todos (toString m) { t with id := toString m }, rest⟩ : TodoStore) := by
        rw [dictInsert_absent hmk]
        exact storeInv_insert_fresh hs hA _
      refine ⟨load_save hsi, ?_, rfl, rfl⟩
      show dictGet (dictInsert s.todos (toString m) { t with id := toString m })
        (toString m) = some { t with id := toString m }
      rw [dictInsert_absent hmk]
      exact dictGet_append_fresh hmk

theorem persistence_roundtrip_witness :
    TodoStore.load storeMilk.save = Except.ok storeMilk ∧
    dictGet storeMilk.todos ({ todoMilk with id := "0" } : Todo).id =
      some { todoMilk with id := "0" } ∧
    ({ todoMilk with id := "0" } : Todo).description = todoMilk.description ∧
    ({ todoMilk with id := "0" } : Todo).priority = todoMilk.priority :=
  persistence_roundtrip initStore todoMilk { todoMilk with id := "0" } storeMilk
    Reachable.init (by decide)

/-- Claim C5 counterexample: constructing a store over a valid JSON document
whose todo carries the unrecognized priority "urgent" raises (the ValueError
from Priority(...) is not caught by _load), contradicting the claim that no
exception escapes construction for every file content. -/
theorem load_invalid_raises_counterexample :
    TodoStore.load (FileContent.doc [("0", badPrioDict)]) =
      Except.error StoreErr.valueError := by
  decide

/-- Claim C5 (amended): a missing or empty file and a malformed (non-JSON)
document yield an empty usable store with no exception; but valid JSON whose
todos carry unrecognized priority/status values, or whose keys int() rejects,
makes construction raise ValueError. -/
theorem load_malformed_empty_store :
    TodoStore.load FileContent.malformed = Except.ok initStore ∧
    TodoStore.load FileContent.missing = Except.ok initStore ∧
    TodoStore.load FileContent.emptyFile = Except.ok initStore ∧
    TodoStore.load (FileContent.doc [("abc", badKeyDict)]) =
      Except.error StoreErr.valueError := by
  exact ⟨rfl, rfl, rfl, by decide⟩

/-- Claim C6 (amended): filter returns exactly the members of get_all meeting
all supplied criteria: a supplied status matches by equality; a supplied
file_path string matches exactly those todos whose file_path is a non-empty
string containing it as a substring (todos whose file_path is None, or the
empty string, never match); both criteria are conjoined, and with no criteria
the result is get_all itself. -/
theorem filter_characterization :
    ∀ (s : TodoStore) (st : Status) (q : String),
      (s.filter none none = s.get_all) ∧
      (∀ t, t ∈ s.filter (some st) none ↔ t ∈ s.get_all ∧ t.status = st) ∧
      (∀ t, t ∈ s.filter none (some q) ↔ t ∈ s.get_all ∧ pathMatches t q) ∧
      (∀ t, t ∈ s.filter (some st) (some q) ↔
        t ∈ s.get_all ∧ t.status = st ∧ pathMatches t q) := by
  intro s st q
  refine ⟨rfl, ?_, ?_, ?_⟩
  · intro t
    show t ∈ (s.get_all).filter (fun t => decide (t.status = st)) ↔ _
    rw [List.mem_filter]
    exact and_congr Iff.rfl (by rw [decide_eq_true_eq])
  · intro t
    show t ∈ (s.get_all).filter (fun t => pathTruthyMatch t.file_path q) ↔ _
    rw [List.mem_filter]
    exact and_congr Iff.rfl pathTruthyMatch_iff_matches
  · intro t
    show t ∈ ((s.get_all).filter (fun t => decide (t.status = st))).filter
        (fun t => pathTruthyMatch t.file_path q) ↔ _
    rw [List.mem_filter, List.mem_filter, and_assoc]
    exact and_congr Iff.rfl
      (and_congr (by rw [decide_eq_true_eq]) pathTruthyMatch_iff_matches)

/-- Claim C6 counterexample: a stored todo whose file_path is set to the empty
string has its file_path set and containing "" as a substring, yet
filter(file_path="") omits it, because the source tests the Python truthiness
of todo.file_path rather than its presence. -/
theorem filter_empty_path_counterexample :
    todoEmptyPath ∈ storeEmptyPath.get_all ∧
    todoEmptyPath.file_path = some "" ∧
    strContains "" "" = true ∧
    todoEmptyPath ∉ storeEmptyPath.filter none (some "") := by
  exact ⟨by decide, rfl, by decide, by decide⟩

/-- Claim C7: update with an id not stored raises the not-found error and
leaves the store unchanged, while remove, mark_complete and mark_pending on an
unknown id return an absence result (False respectively None) rather than
raising, also with the store unchanged. -/
theorem update_unknown_id_raises :
    ∀ (s : TodoStore) (t : Todo) (i now : String),
      (t.id ∉ dictKeys s.todos → s.update t = (Except.error StoreErr.notFound, s)) ∧
      (i ∉ dictKeys s.todos → s.remove i = (Except.ok false, s)) ∧
      (i ∉ dictKeys s.todos → s.mark_complete i now = (none, s)) ∧
      (i ∉ dictKeys s.todos → s.mark_pending i = (none, s)) := by
  intro s t i now
  refine ⟨?_, ?_, ?_, ?_⟩
  · intro h
    simp [TodoStore.update, h]
  · intro h
    simp [TodoStore.remove, h]
  · intro h
    simp [TodoStore.mark_complete, dictGet_eq_none h]
  · intro h
    simp [TodoStore.mark_pending, dictGet_eq_none h]

theorem update_unknown_id_raises_witness :
    initStore.update todoU = (Except.error StoreErr.notFound, initStore) ∧
    initStore.remove "7" = (Except.ok false, initStore) ∧
    initStore.mark_complete "7" "ts" = (none, initStore) ∧
    initStore.mark_pending "7" = (none, initStore) := by
  have h := update_unknown_id_raises initStore todoU "7" "ts"
  exact ⟨h.1 (by decide), h.2.1 (by decide), h.2.2.1 (by decide), h.2.2.2 (by decide)⟩

/-- Claim C8: from_dict inverts to_dict on every Todo, for every valid
Priority and Status value and arbitrary remaining fields. -/
theorem portable_form_roundtrip :
    ∀ t : Todo, Todo.from_dict t.to_dict = Except.ok t :=
  from_dict_to_dict

lemma completedIff_applyMarks : ∀ (ops : List MarkOp) (t : Todo),
    completedIff t → completedIff (applyMarks ops t) := by
  intro ops
  induction ops with
  | nil => exact fun t h => h
  | cons op rest ih =>
      intro t h
      cases op with
      | complete now =>
          rw [applyMarks]
          exact ih _ (by simp [completedIff, Todo.mark_complete])
      | pending =>
          rw [applyMarks]
          exact ih _ (by simp [completedIff, Todo.mark_pending])

/-- Claim C9: for every todo obtained by dataclass construction followed by
any sequence of mark_complete / mark_pending transitions, completed_at is
non-null exactly when the status is COMPLETED. -/
theorem completed_at_iff_completed :
    ∀ (d : String) (p : Priority) (fp : Option String) (now : String)
      (ops : List MarkOp),
      completedIff (applyMarks ops (mkNewTodo d p fp now)) := by
  intro d p fp now ops
  exact completedIff_applyMarks ops _ (by simp [completedIff, mkNewTodo])

/-- Claim C10: each per-id mutator targeting id i leaves the entry stored
under any other id j unchanged: mark_complete, mark_pending, remove, and
update of a todo whose id is i. -/
theorem per_id_mutators_frame :
    ∀ (s : TodoStore) (i j now : String) (t : Todo), j ≠ i →
      dictGet (s.mark_complete i now).2.todos j = dictGet s.todos j ∧
      dictGet (s.mark_pending i).2.todos j = dictGet s.todos j ∧
      dictGet (s.remove i).2.todos j = dictGet s.todos j ∧
      (t.id = i → dictGet (s.update t).2.todos j = dictGet s.todos j) := by
  intro s i j now t hj
  refine ⟨?_, ?_, ?_, ?_⟩
  · cases hg : dictGet s.todos i with
    | none => simp [TodoStore.mark_complete, hg]
    | some u =>
        have h2 : (s.mark_complete i now).2.todos =
            s.todos.map (fun p => if p.1 = i then (p.1, u.mark_complete now) else p) := by
          simp [TodoStore.mark_complete, hg]
        rw [h2]
        exact dictGet_map_frame hj
  · cases hg : dictGet s.todos i with
    | none => simp [TodoStore.mark_pending, hg]
    | some u =>
        have h2 : (s.mark_pending i).2.todos =
            s.todos.map (fun p => if p.1 = i then (p.1, u.mark_pending) else p) := by
          simp [TodoStore.mark_pending, hg]
        rw [h2]
        exact dictGet_map_frame hj
  · by_cases hm : i ∈ dictKeys s.todos
    · cases hp : parseKey i with
      | some n =>
          have h2 : (s.remove i).2.todos =
              s.todos.filter (fun p => decide (p.1 ≠ i)) := by
            simp [TodoStore.remove, hm, hp]
          rw [h2]
          exact dictGet_filter_frame hj
      | none =>
          have h2 : (s.remove i).2.todos =
              s.todos.filter (fun p => decide (p.1 ≠ i)) := by
            simp [TodoStore.remove, hm, hp]
          rw [h2]
          exact dictGet_filter_frame hj
    · simp [TodoStore.remove, hm]
  · intro hti
    by_cases hm : t.id ∈ dictKeys s.todos
    · have h2 : (s.update t).2.todos = dictInsert s.todos t.id t := by
        simp [TodoStore.update, hm]
      rw [h2]
      exact dictGet_dictInsert_frame (fun he => hj (he.trans hti))
    · simp [TodoStore.update, hm]

theorem per_id_mutators_frame_witness :
    dictGet (storeXY.mark_complete "0" "n").2.todos "1" = dictGet storeXY.todos "1" ∧
    dictGet (storeXY.mark_pending "0").2.todos "1" = dictGet storeXY.todos "1" ∧
    dictGet (storeXY.remove "0").2.todos "1" = dictGet storeXY.todos "1" ∧
    dictGet (storeXY.update todoX).2.todos "1" = dictGet storeXY.todos "1" := by
  have h := per_id_mutators_frame storeXY "0" "1" "n" todoX (by decide)
  exact ⟨h.1, h.2.1, h.2.2.1, h.2.2.2 rfl⟩
